import Mathlib

/-
  Verification of the RAG_AGENT document pipeline.

  The development shallowly embeds the pure logic of
  document_processor.py (text chunking, folder aggregation),
  document_ingestion.py (chunk embedding/storage bookkeeping) and
  simple_rag.py (question answering control flow).  Text is modelled as
  a list of characters; Python slice positions are Int, so that the
  semantics of negative indices is preserved; the external services
  (embedding model, vector store, completion model, file extraction)
  are oracle function parameters, as they are external collaborators.
  Loops of the source that are not structurally recursive are given a
  fuel parameter; a result of none means the fuel ran out, and theorems
  that quantify over all fuel values express divergence of the source
  loop.
-/

namespace RagAgent

/-- Characters stripped by the Python str.strip method, restricted to
the ASCII range (the Unicode-only space classes are irrelevant to the
ASCII texts the claims quantify over). -/
def isPySpace (c : Char) : Bool :=
  c = ' ' || c = '\t' || c = '\n' || c = '\r' ||
  c = (Char.ofNat 11) || c = (Char.ofNat 12) ||
  c = (Char.ofNat 28) || c = (Char.ofNat 29) ||
  c = (Char.ofNat 30) || c = (Char.ofNat 31)

/-- Python str.strip: drop leading and trailing whitespace. -/
def pyStrip (l : List Char) : List Char :=
  ((l.dropWhile isPySpace).reverse.dropWhile isPySpace).reverse

/-- Resolution of one Python slice bound for a sequence of the given
length: a negative index counts from the end (clamped at 0), a
non-negative one is clamped at the length. -/
def pyBound (len : Nat) (i : Int) : Nat :=
  if i < 0 then ((len : Int) + i).toNat else min i.toNat len

/-- Python slice l[s:e] (step 1). -/
def pySlice (l : List Char) (s e : Int) : List Char :=
  (l.take (pyBound l.length e)).drop (pyBound l.length s)

/-- Python str.rfind restricted to a single character: index of the
last occurrence, none when the character does not occur (Python
returns -1 in that case; the comparisons of the source that consume
the -1 are modelled on the Option). -/
def lastIndexOf (l : List Char) (c : Char) : Option Nat :=
  match l with
  | [] => none
  | a :: as =>
    match lastIndexOf as c with
    | some i => some (i + 1)
    | none => if a = c then some 0 else none

/-- The boundary-adjustment step of DocumentProcessor.chunk_text
(document_processor.py lines 163-170): prefer the last sentence
terminator, then the last space, each only when it lies strictly
beyond 80 percent of chunk_size.

The source compares the rfind result against the float
chunk_size * 0.8; for every integer index i and every chunk_size
representable as a double, the float comparison i > chunk_size * 0.8
agrees with the exact rational comparison 5 * i > 4 * chunk_size
(the rounding error of the product is below 2 to the minus 52
relatively, far smaller than the 1/5 gap between an integer and the
nearest non-equal multiple of 0.2), so the condition is embedded as
4 * cs < 5 * i. -/
def adjustEnd (chunk : List Char) (cs : Nat) (start end0 : Int) : Int :=
  match lastIndexOf chunk '.' with
  | some p =>
    if 4 * cs < 5 * p then start + p + 1
    else
      match lastIndexOf chunk ' ' with
      | some s => if 4 * cs < 5 * s then start + s else end0
      | none => end0
  | none =>
    match lastIndexOf chunk ' ' with
    | some s => if 4 * cs < 5 * s then start + s else end0
    | none => end0

/-- One iteration of the chunk_text loop: the adjusted end of the
window starting at the given position (document_processor.py lines
160-170; the slice text[start:end] is recomputed from the window
bounds, so only the adjusted end needs recording). -/
def stepEnd (t : List Char) (cs : Nat) (start : Int) : Int :=
  let end0 : Int := start + cs
  let chunk := pySlice t start end0
  if end0 < (t.length : Int) then adjustEnd chunk cs start end0 else end0

/-- The while loop of DocumentProcessor.chunk_text (document_processor.py
lines 159-179), with fuel: none means the loop did not finish within
the given number of iterations. -/
def chunkLoop : Nat → List Char → Nat → Nat → Int → List (List Char) →
    Option (List (List Char))
  | 0, _, _, _, _, _ => none
  | fuel + 1, t, cs, ov, start, chunks =>
    if start < (t.length : Int) then
      let end1 := stepEnd t cs start
      let piece := pyStrip (pySlice t start end1)
      let chunks' := if piece = [] then chunks else chunks ++ [piece]
      let start' := end1 - (ov : Int)
      if (t.length : Int) ≤ start' then some chunks'
      else chunkLoop fuel t cs ov start' chunks'
    else some chunks

/-- The same loop recording the pre-trim window of each iteration as a
pair (start, adjusted end). -/
def windowsLoop : Nat → List Char → Nat → Nat → Int → Option (List (Int × Int))
  | 0, _, _, _, _ => none
  | fuel + 1, t, cs, ov, start =>
    if start < (t.length : Int) then
      let end1 := stepEnd t cs start
      let start' := end1 - (ov : Int)
      if (t.length : Int) ≤ start' then some [(start, end1)]
      else (windowsLoop fuel t cs ov start').map (fun ws => (start, end1) :: ws)
    else some []

/-- The chunks obtained from a window list: each window slice is
stripped and blank slices are dropped, as in the loop body. -/
def chunksOfWindows (t : List Char) (ws : List (Int × Int)) : List (List Char) :=
  ws.filterMap fun w =>
    let p := pyStrip (pySlice t w.1 w.2)
    if p = [] then none else some p

/-- Python x or default applied to an optional integer argument: None
and 0 are both falsy, so both select the default
(document_processor.py lines 150-151, simple_rag.py line 60). -/
def orDefault (dflt : Nat) (arg : Option Nat) : Nat :=
  match arg with
  | none => dflt
  | some n => if n = 0 then dflt else n

/-- DocumentProcessor.chunk_text with the configured defaults
selfCs/selfOv and the two optional call arguments
(document_processor.py lines 138-181). -/
def chunk_text (fuel : Nat) (selfCs selfOv : Nat) (t : List Char)
    (csArg ovArg : Option Nat) : Option (List (List Char)) :=
  let cs := orDefault selfCs csArg
  let ov := orDefault selfOv ovArg
  if t.length ≤ cs then some [t]
  else chunkLoop fuel t cs ov 0 []

/-- chunk_text with the effective size and overlap already resolved. -/
def chunkRun (fuel : Nat) (t : List Char) (cs ov : Nat) :
    Option (List (List Char)) :=
  if t.length ≤ cs then some [t]
  else chunkLoop fuel t cs ov 0 []

/-! Basic properties of the helpers. -/

theorem lastIndexOf_lt_length {l : List Char} {c : Char} {i : Nat}
    (h : lastIndexOf l c = some i) : i < l.length := by
  induction l generalizing i with
  | nil => simp [lastIndexOf] at h
  | cons a as ih =>
    simp only [lastIndexOf] at h
    cases hrec : lastIndexOf as c with
    | some j =>
      rw [hrec] at h
      cases h
      simpa using Nat.succ_lt_succ (ih hrec)
    | none =>
      rw [hrec] at h
      by_cases hac : a = c
      · simp only [if_pos hac] at h
        cases h
        simp
      · simp [hac] at h

theorem lastIndexOf_eq_none_of_not_mem {l : List Char} {c : Char}
    (h : c ∉ l) : lastIndexOf l c = none := by
  induction l with
  | nil => rfl
  | cons a as ih =>
    simp only [List.mem_cons, not_or] at h
    simp only [lastIndexOf, ih h.2]
    simp [Ne.symm h.1]

theorem pyStrip_eq_self {l : List Char} (h : ∀ c ∈ l, isPySpace c = false) :
    pyStrip l = l := by
  have h1 : l.dropWhile isPySpace = l := by
    cases l with
    | nil => rfl
    | cons a as => simp [List.dropWhile_cons, h a (by simp)]
  rw [pyStrip, h1]
  have h2 : l.reverse.dropWhile isPySpace = l.reverse := by
    cases hr : l.reverse with
    | nil => rfl
    | cons a as =>
      have ha : a ∈ l := by
        rw [← List.mem_reverse, hr]; simp
      simp [List.dropWhile_cons, h a ha]
  rw [h2, List.reverse_reverse]

theorem pySlice_length (l : List Char) (s e : Int) :
    (pySlice l s e).length = pyBound l.length e - pyBound l.length s := by
  have hb : pyBound l.length e ≤ l.length := by
    unfold pyBound
    split
    · omega
    · omega
  simp [pySlice, List.length_drop, List.length_take]
  omega

theorem mem_of_mem_pySlice {l : List Char} {s e : Int} {c : Char}
    (h : c ∈ pySlice l s e) : c ∈ l := by
  simp only [pySlice] at h
  exact List.mem_of_mem_take (List.mem_of_mem_drop h)

/-- The chunk list built by the source loop is the filtered stripped
slice list of the recorded windows. -/
theorem chunkLoop_eq_windowsLoop (fuel : Nat) :
    ∀ (t : List Char) (cs ov : Nat) (start : Int) (acc : List (List Char)),
    chunkLoop fuel t cs ov start acc =
      (windowsLoop fuel t cs ov start).map (fun ws => acc ++ chunksOfWindows t ws) := by
  induction fuel with
  | zero => intros; rfl
  | succ n ih =>
    intro t cs ov start acc
    simp only [chunkLoop, windowsLoop]
    by_cases h1 : start < (t.length : Int)
    · simp only [if_pos h1]
      by_cases h2 : (t.length : Int) ≤ stepEnd t cs start - (ov : Int)
      · simp only [if_pos h2, Option.map_some']
        by_cases hp : pyStrip (pySlice t start (stepEnd t cs start)) = []
        · simp [hp, chunksOfWindows]
        · simp [hp, chunksOfWindows]
      · simp only [if_neg h2, ih]
        cases hw : windowsLoop n t cs ov (stepEnd t cs start - (ov : Int)) with
        | none => simp
        | some ws =>
          simp only [Option.map_some']
          by_cases hp : pyStrip (pySlice t start (stepEnd t cs start)) = []
          · simp [hp, chunksOfWindows]
          · simp [hp, chunksOfWindows]
    · simp [if_neg h1, chunksOfWindows]

/-- The slice taken by a window of width cs holds at most cs
characters. -/
theorem window_slice_length_le {t : List Char} {cs : Nat} {start : Int}
    (h0 : 0 ≤ start) : (pySlice t start (start + cs)).length ≤ cs := by
  rw [pySlice_length]
  simp only [pyBound, if_neg (not_lt.mpr h0),
    if_neg (not_lt.mpr (by omega : (0 : Int) ≤ start + cs))]
  omega

/-- Bounds on the adjusted window end when the overlap is at most 80
percent of the chunk size: the window advances past the overlap and
never exceeds the nominal width. -/
theorem stepEnd_bounds {t : List Char} {cs ov : Nat} {start : Int}
    (hcs : 1 ≤ cs) (hov : 5 * ov ≤ 4 * cs) (h0 : 0 ≤ start) :
    start + (ov : Int) < stepEnd t cs start ∧ stepEnd t cs start ≤ start + cs := by
  have hovcs : ov < cs := by omega
  rw [stepEnd]
  by_cases hin : start + (cs : Int) < (t.length : Int)
  · simp only [if_pos hin]
    have hlen : (pySlice t start (start + cs)).length ≤ cs :=
      window_slice_length_le h0
    rw [adjustEnd]
    cases hp : lastIndexOf (pySlice t start (start + cs)) '.' with
    | some p =>
      have hplt : p < (pySlice t start (start + cs)).length :=
        lastIndexOf_lt_length hp
      by_cases h4 : 4 * cs < 5 * p
      · simp only [if_pos h4]
        constructor
        · have : ov < p := by omega
          omega
        · have : p + 1 ≤ cs := by omega
          omega
      · simp only [if_neg h4]
        cases hs : lastIndexOf (pySlice t start (start + cs)) ' ' with
        | some s =>
          have hslt : s < (pySlice t start (start + cs)).length :=
            lastIndexOf_lt_length hs
          by_cases h4s : 4 * cs < 5 * s
          · simp only [if_pos h4s]
            constructor
            · have : ov < s := by omega
              omega
            · have : s ≤ cs := by omega
              omega
          · simp only [if_neg h4s]
            omega
        | none =>
          dsimp only
          omega
    | none =>
      cases hs : lastIndexOf (pySlice t start (start + cs)) ' ' with
      | some s =>
        have hslt : s < (pySlice t start (start + cs)).length :=
          lastIndexOf_lt_length hs
        by_cases h4s : 4 * cs < 5 * s
        · simp only [if_pos h4s]
          constructor
          · have : ov < s := by omega
            omega
          · have : s ≤ cs := by omega
            omega
        · simp only [if_neg h4s]
          omega
      | none =>
        dsimp only
        omega
  · simp only [if_neg hin]
    omega

/-- Main loop invariant under an overlap of at most 80 percent of the
chunk size: the loop terminates within length-many iterations, the
recorded window starts strictly increase, every window starts inside
the text, is wider than the overlap and at most cs wide, and the
windows cover every character position from the entry position on. -/
theorem windowsLoop_spec {t : List Char} {cs ov : Nat}
    (hcs : 1 ≤ cs) (hov : 5 * ov ≤ 4 * cs) :
    ∀ (fuel : Nat) (start : Int), 0 ≤ start →
      (t.length : Int) ≤ start + fuel →
      ∃ ws, windowsLoop (fuel + 1) t cs ov start = some ws ∧
        List.Chain' (fun a b => a.1 < b.1) ws ∧
        (∀ w ∈ ws, start ≤ w.1 ∧ w.1 < (t.length : Int) ∧
          w.1 + (ov : Int) < w.2 ∧ w.2 ≤ w.1 + cs) ∧
        (∀ i : Int, start ≤ i → i < (t.length : Int) →
          ∃ w ∈ ws, w.1 ≤ i ∧ i < w.2) := by
  intro fuel
  induction fuel with
  | zero =>
    intro start h0 hbud
    refine ⟨[], ?_, by simp, by simp, ?_⟩
    · rw [windowsLoop, if_neg (by push_cast at hbud ⊢; omega)]
    · intro i hsi hilen
      omega
  | succ n ih =>
    intro start h0 hbud
    rw [windowsLoop]
    by_cases hlt : start < (t.length : Int)
    · rw [if_pos hlt]
      obtain ⟨hlow, hhigh⟩ := stepEnd_bounds (t := t) hcs hov h0
      by_cases hbrk : (t.length : Int) ≤ stepEnd t cs start - (ov : Int)
      · rw [if_pos hbrk]
        refine ⟨[(start, stepEnd t cs start)], rfl, by simp, ?_, ?_⟩
        · intro w hw
          simp only [List.mem_singleton] at hw
          subst hw
          exact ⟨le_refl _, hlt, by omega, by omega⟩
        · intro i hsi hilen
          refine ⟨(start, stepEnd t cs start), by simp, hsi, ?_⟩
          omega
      · rw [if_neg hbrk]
        have h0' : 0 ≤ stepEnd t cs start - (ov : Int) := by omega
        have hbud' : (t.length : Int) ≤ stepEnd t cs start - (ov : Int) + n := by
          push_cast at hbud ⊢
          omega
        obtain ⟨ws', hws', hchain', hinv', hcov'⟩ :=
          ih (stepEnd t cs start - (ov : Int)) h0' hbud'
        refine ⟨(start, stepEnd t cs start) :: ws', by rw [hws']; rfl, ?_, ?_, ?_⟩
        · rw [List.chain'_cons']
          refine ⟨?_, hchain'⟩
          intro b hb
          have hbmem : b ∈ ws' := by
            cases ws' with
            | nil => simp at hb
            | cons x xs =>
              simp only [List.head?] at hb
              cases hb
              simp
          have := hinv' b hbmem
          omega
        · intro w hw
          rcases List.mem_cons.mp hw with hw1 | hw2
          · subst hw1
            exact ⟨le_refl _, hlt, by omega, by omega⟩
          · have := hinv' w hw2
            refine ⟨by omega, this.2.1, this.2.2.1, this.2.2.2⟩
        · intro i hsi hilen
          by_cases hie : i < stepEnd t cs start
          · exact ⟨(start, stepEnd t cs start), by simp, hsi, hie⟩
          · obtain ⟨w, hwmem, hw1, hw2⟩ := hcov' i (by omega) hilen
            exact ⟨w, List.mem_cons_of_mem _ hwmem, hw1, hw2⟩
    · rw [if_neg hlt]
      refine ⟨[], rfl, by simp, by simp, ?_⟩
      intro i hsi hilen
      omega

/-! Claim C2. -/

/-- A 27-character text whose first window cuts at the space at index
9; with chunk_size 10 and overlap 9 the loop then restarts at 0. -/
def cexTextC2 : List Char := "abcdefghi jklmnopqrstuvwxyz".toList

theorem chunkLoop_cexC2_step (fuel : Nat) (acc : List (List Char)) :
    chunkLoop (fuel + 1) cexTextC2 10 9 0 acc =
      chunkLoop fuel cexTextC2 10 9 0 (acc ++ ["abcdefghi".toList]) := rfl

theorem chunkLoop_cexC2_none :
    ∀ (fuel : Nat) (acc : List (List Char)),
      chunkLoop fuel cexTextC2 10 9 0 acc = none := by
  intro fuel
  induction fuel with
  | zero => intro acc; rfl
  | succ n ih =>
    intro acc
    rw [chunkLoop_cexC2_step]
    exact ih _

/-- Claim C2 counterexample: the claim quantifies over every overlap
strictly below chunk_size, but with chunk_size 10, overlap 9 and the
27-character text above, chunk_text never returns a chunk sequence at
all: the window is cut at the space at index 9, the next start is
9 - 9 = 0, and the loop repeats forever, so no returned sequence can
have increasing starts or cover the input. -/
theorem claim_C2_counterexample :
    ¬ ∃ (fuel : Nat) (chunks : List (List Char)),
        chunkRun fuel cexTextC2 10 9 = some chunks := by
  rintro ⟨fuel, chunks, h⟩
  rw [chunkRun, if_neg (by decide), chunkLoop_cexC2_none] at h
  exact Option.noConfusion h

/-- Claim C2 (amended): for every text strictly longer than chunk_size,
chunk_size at least 1 and overlap at most 80 percent of chunk_size,
chunk_text terminates, each window start offset in the original text
is strictly below the next window start, the union of the window
character ranges covers the full input, and the returned chunks are
exactly the non-blank stripped window slices. -/
theorem claim_C2_amended (t : List Char) (cs ov : Nat)
    (hlen : cs < t.length) (hcs : 1 ≤ cs) (hov : 5 * ov ≤ 4 * cs) :
    ∃ ws, windowsLoop (t.length + 1) t cs ov 0 = some ws ∧
      chunkRun (t.length + 1) t cs ov = some (chunksOfWindows t ws) ∧
      List.Chain' (fun a b => a.1 < b.1) ws ∧
      (∀ i : Int, 0 ≤ i → i < (t.length : Int) →
        ∃ w ∈ ws, w.1 ≤ i ∧ i < w.2) := by
  obtain ⟨ws, hws, hchain, hinv, hcov⟩ :=
    windowsLoop_spec (t := t) hcs hov t.length 0 (le_refl 0) (by omega)
  refine ⟨ws, hws, ?_, hchain, fun i h1 h2 => hcov i h1 h2⟩
  rw [chunkRun, if_neg (by omega), chunkLoop_eq_windowsLoop, hws]
  rfl

theorem claim_C2_amended_witness :
    ((4 : Nat) < "abcdef".toList.length ∧ (1 : Nat) ≤ 4 ∧ 5 * 3 ≤ 4 * 4) ∧
    (∃ ws, windowsLoop ("abcdef".toList.length + 1) "abcdef".toList 4 3 0 = some ws ∧
      chunkRun ("abcdef".toList.length + 1) "abcdef".toList 4 3 =
        some (chunksOfWindows "abcdef".toList ws) ∧
      List.Chain' (fun a b => a.1 < b.1) ws ∧
      (∀ i : Int, 0 ≤ i → i < ("abcdef".toList.length : Int) →
        ∃ w ∈ ws, w.1 ≤ i ∧ i < w.2)) :=
  ⟨by refine ⟨by decide, by decide, by decide⟩,
   claim_C2_amended "abcdef".toList 4 3 (by decide) (by decide) (by decide)⟩

/-! Claim C3. -/

/-- When the text contains neither a period nor a whitespace
character, no window is ever cut early: the adjusted end is always
start + chunk_size. -/
theorem stepEnd_no_boundary {t : List Char}
    (hnb : ∀ c ∈ t, c ≠ '.' ∧ isPySpace c = false) (cs : Nat) (s : Int) :
    stepEnd t cs s = s + cs := by
  rw [stepEnd]
  by_cases hin : s + (cs : Int) < (t.length : Int)
  · have hdot : lastIndexOf (pySlice t s (s + cs)) '.' = none := by
      apply lastIndexOf_eq_none_of_not_mem
      intro hmem
      exact (hnb '.' (mem_of_mem_pySlice hmem)).1 rfl
    have hsp : lastIndexOf (pySlice t s (s + cs)) ' ' = none := by
      apply lastIndexOf_eq_none_of_not_mem
      intro hmem
      have h1 := (hnb ' ' (mem_of_mem_pySlice hmem)).2
      have h2 : isPySpace ' ' = true := by decide
      rw [h2] at h1
      exact Bool.noConfusion h1
    rw [if_pos hin, adjustEnd, hdot, hsp]
  · rw [if_neg hin]

theorem windowsLoop_C3_step {t : List Char} (hlen : t.length = 2500)
    (hnb : ∀ c ∈ t, c ≠ '.' ∧ isPySpace c = false)
    (fuel : Nat) (s : Int) (_h1 : s < 2500) (h2 : s + 800 < 2500) :
    windowsLoop (fuel + 1) t 1000 200 s =
      (windowsLoop fuel t 1000 200 (s + 800)).map
        (fun ws => (s, s + 1000) :: ws) := by
  have hl : (t.length : Int) = 2500 := by rw [hlen]; rfl
  rw [windowsLoop, hl, if_pos (by omega), stepEnd_no_boundary hnb]
  rw [if_neg (by push_cast; omega)]
  norm_num
  rw [show s + (1000 : Int) - 200 = s + 800 from by ring]

theorem windowsLoop_C3_brk {t : List Char} (hlen : t.length = 2500)
    (hnb : ∀ c ∈ t, c ≠ '.' ∧ isPySpace c = false)
    (fuel : Nat) (s : Int) (h1 : s < 2500) (h2 : 2500 ≤ s + 800) :
    windowsLoop (fuel + 1) t 1000 200 s = some [(s, s + 1000)] := by
  have hl : (t.length : Int) = 2500 := by rw [hlen]; rfl
  rw [windowsLoop, hl, if_pos (by omega), stepEnd_no_boundary hnb]
  rw [if_pos (by push_cast; omega)]
  norm_num

theorem windowsLoop_C3 {t : List Char} (hlen : t.length = 2500)
    (hnb : ∀ c ∈ t, c ≠ '.' ∧ isPySpace c = false) :
    windowsLoop 2501 t 1000 200 0 =
      some [(0, 1000), (800, 1800), (1600, 2600), (2400, 3400)] := by
  have e1 := windowsLoop_C3_step hlen hnb 2500 0 (by omega) (by omega)
  have e2 := windowsLoop_C3_step hlen hnb 2499 800 (by omega) (by omega)
  have e3 := windowsLoop_C3_step hlen hnb 2498 1600 (by omega) (by omega)
  have e4 := windowsLoop_C3_brk hlen hnb 2497 2400 (by omega) (by omega)
  norm_num at e1 e2 e3 e4
  rw [e1, e2, e3, e4]
  rfl

theorem chunksOfWindows_cons_nonblank {t : List Char} {a b : Int}
    {ws : List (Int × Int)}
    (hst : pyStrip (pySlice t a b) = pySlice t a b)
    (hne : pySlice t a b ≠ []) :
    chunksOfWindows t ((a, b) :: ws) =
      pySlice t a b :: chunksOfWindows t ws := by
  unfold chunksOfWindows
  rw [List.filterMap_cons]
  dsimp only
  rw [hst, if_neg hne]

/-- Full evaluation of the chunking run on a 2500-character text with
no period and no whitespace: windows, chunks, lengths and adjacent
window overlap sizes. -/
theorem chunkRun_C3_eval {t : List Char} (hlen : t.length = 2500)
    (hnb : ∀ c ∈ t, c ≠ '.' ∧ isPySpace c = false) :
    windowsLoop 2501 t 1000 200 0 =
      some [(0, 1000), (800, 1800), (1600, 2600), (2400, 3400)] ∧
    chunkRun 2501 t 1000 200 =
      some [pySlice t 0 1000, pySlice t 800 1800,
        pySlice t 1600 2600, pySlice t 2400 3400] ∧
    (chunkRun 2501 t 1000 200).map (List.map List.length) =
      some [1000, 1000, 900, 100] ∧
    (∀ chunks ∈ chunkRun 2501 t 1000 200, ∀ c ∈ chunks, c.length ≤ 1000) ∧
    min (1000 : Int) 2500 - 800 = 200 ∧
    min (1800 : Int) 2500 - 1600 = 200 ∧
    min (2600 : Int) 2500 - 2400 = 100 := by
  have hws := windowsLoop_C3 hlen hnb
  have hstrip : ∀ a b : Int, pyStrip (pySlice t a b) = pySlice t a b :=
    fun a b => pyStrip_eq_self (fun c hc => (hnb c (mem_of_mem_pySlice hc)).2)
  have l1 : (pySlice t 0 1000).length = 1000 := by
    rw [pySlice_length, hlen]; decide
  have l2 : (pySlice t 800 1800).length = 1000 := by
    rw [pySlice_length, hlen]; decide
  have l3 : (pySlice t 1600 2600).length = 900 := by
    rw [pySlice_length, hlen]; decide
  have l4 : (pySlice t 2400 3400).length = 100 := by
    rw [pySlice_length, hlen]; decide
  have hne1 : pySlice t 0 1000 ≠ [] := by
    intro h; rw [h] at l1; exact absurd l1 (by decide)
  have hne2 : pySlice t 800 1800 ≠ [] := by
    intro h; rw [h] at l2; exact absurd l2 (by decide)
  have hne3 : pySlice t 1600 2600 ≠ [] := by
    intro h; rw [h] at l3; exact absurd l3 (by decide)
  have hne4 : pySlice t 2400 3400 ≠ [] := by
    intro h; rw [h] at l4; exact absurd l4 (by decide)
  have hcw : chunksOfWindows t [(0, 1000), (800, 1800), (1600, 2600), (2400, 3400)] =
      [pySlice t 0 1000, pySlice t 800 1800,
        pySlice t 1600 2600, pySlice t 2400 3400] := by
    rw [chunksOfWindows_cons_nonblank (hstrip 0 1000) hne1,
      chunksOfWindows_cons_nonblank (hstrip 800 1800) hne2,
      chunksOfWindows_cons_nonblank (hstrip 1600 2600) hne3,
      chunksOfWindows_cons_nonblank (hstrip 2400 3400) hne4]
    rfl
  have hrun : chunkRun 2501 t 1000 200 =
      some [pySlice t 0 1000, pySlice t 800 1800,
        pySlice t 1600 2600, pySlice t 2400 3400] := by
    rw [chunkRun, if_neg (by omega), chunkLoop_eq_windowsLoop, hws,
      Option.map_some']
    rw [show ∀ l : List (List Char), [] ++ l = l from fun l => rfl, hcw]
  refine ⟨hws, hrun, ?_, ?_, by norm_num, by norm_num, by norm_num⟩
  · rw [hrun, Option.map_some', List.map_cons, List.map_cons, List.map_cons,
      List.map_cons, List.map_nil, l1, l2, l3, l4]
  · intro chunks hchunks c hc
    rw [hrun] at hchunks
    simp only [Option.mem_def, Option.some_inj] at hchunks
    subst hchunks
    simp only [List.mem_cons, List.not_mem_nil, or_false] at hc
    rcases hc with h | h | h | h
    · rw [h]; omega
    · rw [h]; omega
    · rw [h]; omega
    · rw [h]; omega

/-- Claim C3 counterexample: on the 2500-character all-a text (no
periods, no spaces anywhere, hence none near window boundaries) the
four windows are (0,1000), (800,1800), (1600,2600), (2400,3400) and
the chunk lengths are 1000, 1000, 900, 100; the final window reaches
past the end of the text, so the last two chunks share only the 100
characters of positions 2400-2499, not 200: the fourth chunk is 100
characters long and therefore cannot overlap its neighbour by 200. -/
theorem claim_C3_counterexample :
    windowsLoop 2501 (List.replicate 2500 'a') 1000 200 0 =
      some [(0, 1000), (800, 1800), (1600, 2600), (2400, 3400)] ∧
    (chunkRun 2501 (List.replicate 2500 'a') 1000 200).map
        (List.map List.length) = some [1000, 1000, 900, 100] ∧
    min (2600 : Int) 2500 - 2400 ≠ 200 := by
  have hmem : ∀ c ∈ List.replicate 2500 'a', c ≠ '.' ∧ isPySpace c = false := by
    intro c hc
    rw [List.eq_of_mem_replicate hc]
    exact ⟨by decide, by decide⟩
  obtain ⟨h1, _, h3, _⟩ := chunkRun_C3_eval (by rw [List.length_replicate]) hmem
  exact ⟨h1, h3, by decide⟩

/-- Claim C3 (amended): with chunk_size 1000 and overlap 200 on any
2500-character text containing no period and no whitespace, chunk_text
produces exactly 4 chunks of lengths 1000, 1000, 900 and 100, each at
most 1000 characters; the first two adjacent pairs of windows overlap
by exactly 200 characters, while the final pair overlaps by exactly
100 (the last window starts at 2400 and the text ends at 2500, so the
fourth chunk is wholly contained in the third). -/
theorem claim_C3_amended {t : List Char} (hlen : t.length = 2500)
    (hnb : ∀ c ∈ t, c ≠ '.' ∧ isPySpace c = false) :
    windowsLoop 2501 t 1000 200 0 =
      some [(0, 1000), (800, 1800), (1600, 2600), (2400, 3400)] ∧
    chunkRun 2501 t 1000 200 =
      some [pySlice t 0 1000, pySlice t 800 1800,
        pySlice t 1600 2600, pySlice t 2400 3400] ∧
    (chunkRun 2501 t 1000 200).map (List.map List.length) =
      some [1000, 1000, 900, 100] ∧
    (∀ chunks ∈ chunkRun 2501 t 1000 200, ∀ c ∈ chunks, c.length ≤ 1000) ∧
    min (1000 : Int) 2500 - 800 = 200 ∧
    min (1800 : Int) 2500 - 1600 = 200 ∧
    min (2600 : Int) 2500 - 2400 = 100 :=
  chunkRun_C3_eval hlen hnb

theorem claim_C3_amended_witness :
    ((List.replicate 2500 'a').length = 2500 ∧
      (∀ c ∈ List.replicate 2500 'a', c ≠ '.' ∧ isPySpace c = false)) ∧
    (windowsLoop 2501 (List.replicate 2500 'a') 1000 200 0 =
      some [(0, 1000), (800, 1800), (1600, 2600), (2400, 3400)] ∧
    chunkRun 2501 (List.replicate 2500 'a') 1000 200 =
      some [pySlice (List.replicate 2500 'a') 0 1000,
        pySlice (List.replicate 2500 'a') 800 1800,
        pySlice (List.replicate 2500 'a') 1600 2600,
        pySlice (List.replicate 2500 'a') 2400 3400] ∧
    (chunkRun 2501 (List.replicate 2500 'a') 1000 200).map
        (List.map List.length) = some [1000, 1000, 900, 100] ∧
    (∀ chunks ∈ chunkRun 2501 (List.replicate 2500 'a') 1000 200,
      ∀ c ∈ chunks, c.length ≤ 1000) ∧
    min (1000 : Int) 2500 - 800 = 200 ∧
    min (1800 : Int) 2500 - 1600 = 200 ∧
    min (2600 : Int) 2500 - 2400 = 100) := by
  have hmem : ∀ c ∈ List.replicate 2500 'a', c ≠ '.' ∧ isPySpace c = false := by
    intro c hc
    rw [List.eq_of_mem_replicate hc]
    exact ⟨by decide, by decide⟩
  exact ⟨⟨by rw [List.length_replicate], hmem⟩,
    claim_C3_amended (by rw [List.length_replicate]) hmem⟩

/-! Claim C4. -/

theorem lastIndexOf_isSome_of_mem {l : List Char} {c : Char} (h : c ∈ l) :
    ∃ i, lastIndexOf l c = some i := by
  induction l with
  | nil => cases h
  | cons a as ih =>
    rw [List.mem_cons] at h
    simp only [lastIndexOf]
    cases hrec : lastIndexOf as c with
    | some j => exact ⟨j + 1, rfl⟩
    | none =>
      rcases h with h | h
      · exact ⟨0, by rw [if_pos h.symm]⟩
      · obtain ⟨j, hj⟩ := ih h
        rw [hj] at hrec
        cases hrec

theorem lastIndexOf_getElem {l : List Char} {c : Char} {i : Nat}
    (h : lastIndexOf l c = some i) :
    l[i]? = some c ∧ ∀ j, i < j → l[j]? ≠ some c := by
  induction l generalizing i with
  | nil => cases h
  | cons a as ih =>
    simp only [lastIndexOf] at h
    cases hrec : lastIndexOf as c with
    | some j =>
      rw [hrec] at h
      cases h
      obtain ⟨hget, hmax⟩ := ih hrec
      refine ⟨by rw [List.getElem?_cons_succ]; exact hget, ?_⟩
      intro k hk
      cases k with
      | zero => omega
      | succ m =>
        rw [List.getElem?_cons_succ]
        exact hmax m (by omega)
    | none =>
      rw [hrec] at h
      by_cases hac : a = c
      · rw [if_pos hac] at h
        cases h
        refine ⟨by rw [List.getElem?_cons_zero, hac], ?_⟩
        intro k hk
        cases k with
        | zero => omega
        | succ m =>
          rw [List.getElem?_cons_succ]
          intro hmem
          have : c ∈ as := List.getElem?_mem hmem
          obtain ⟨j, hj⟩ := lastIndexOf_isSome_of_mem this
          rw [hj] at hrec
          cases hrec
      · rw [if_neg hac] at h
        cases h

/-- The greatest index holding the character, phrased through
Nat.findGreatest; this is the search-backward-for-the-last-occurrence
reading used by the specification text. -/
def lastOccurrence (l : List Char) (c : Char) : Option Nat :=
  if c ∈ l then some (Nat.findGreatest (fun i => l[i]? = some c) l.length)
  else none

theorem lastIndexOf_eq_lastOccurrence (l : List Char) (c : Char) :
    lastIndexOf l c = lastOccurrence l c := by
  rw [lastOccurrence]
  by_cases hmem : c ∈ l
  · rw [if_pos hmem]
    obtain ⟨i, hi⟩ := lastIndexOf_isSome_of_mem hmem
    obtain ⟨hget, hmax⟩ := lastIndexOf_getElem hi
    rw [hi]
    congr 1
    have hil : i ≤ l.length := le_of_lt (lastIndexOf_lt_length hi)
    refine le_antisymm (Nat.le_findGreatest hil hget) ?_
    by_contra hgt
    push_neg at hgt
    exact hmax _ hgt
      (Nat.findGreatest_spec (P := fun i => l[i]? = some c) hil hget)
  · rw [if_neg hmem, lastIndexOf_eq_none_of_not_mem hmem]

/-- Modelled from the claim wording of C4: the window cut rule with
the threshold read as at least 80 percent of chunk_size
(4 * cs ≤ 5 * index), using the greatest-occurrence search. -/
def specCutGe (chunk : List Char) (cs : Nat) (start end0 : Int) : Int :=
  match lastOccurrence chunk '.' with
  | some p =>
    if 4 * cs ≤ 5 * p then start + p + 1
    else
      match lastOccurrence chunk ' ' with
      | some s => if 4 * cs ≤ 5 * s then start + s else end0
      | none => end0
  | none =>
    match lastOccurrence chunk ' ' with
    | some s => if 4 * cs ≤ 5 * s then start + s else end0
    | none => end0

/-- The same cut rule with the threshold read strictly
(4 * cs < 5 * index), matching the source comparison. -/
def specCutGt (chunk : List Char) (cs : Nat) (start end0 : Int) : Int :=
  match lastOccurrence chunk '.' with
  | some p =>
    if 4 * cs < 5 * p then start + p + 1
    else
      match lastOccurrence chunk ' ' with
      | some s => if 4 * cs < 5 * s then start + s else end0
      | none => end0
  | none =>
    match lastOccurrence chunk ' ' with
    | some s => if 4 * cs < 5 * s then start + s else end0
    | none => end0

theorem adjustEnd_eq_specCutGt (chunk : List Char) (cs : Nat)
    (start end0 : Int) :
    adjustEnd chunk cs start end0 = specCutGt chunk cs start end0 := by
  rw [adjustEnd, specCutGt]
  simp only [lastIndexOf_eq_lastOccurrence]

theorem stepEnd_eq_specCutGt (t : List Char) (cs : Nat) (s : Int) :
    stepEnd t cs s =
      if s + (cs : Int) < (t.length : Int)
      then specCutGt (pySlice t s (s + cs)) cs s (s + cs)
      else s + cs := by
  rw [stepEnd, adjustEnd_eq_specCutGt]

/-- The first window of the run on this text has its last period at
index 8, exactly 80 percent of chunk_size 10. -/
def cexTextC4 : List Char := List.replicate 8 'a' ++ '.' :: List.replicate 3 'b'

/-- Claim C4 counterexample: in the first window of the run with
chunk_size 10 and overlap 5 on the 12-character text aaaaaaaa.bbb, the
last period sits at offset 8, which is exactly 80 percent of
chunk_size, so the claimed at-least-80-percent rule cuts the window at
9 (inclusive of the terminator); the code compares strictly and leaves
the window end at 10, as the recorded window list shows. -/
theorem claim_C4_counterexample :
    lastOccurrence (pySlice cexTextC4 0 10) '.' = some 8 ∧
    4 * 10 ≤ 5 * 8 ∧
    specCutGe (pySlice cexTextC4 0 10) 10 0 10 = 9 ∧
    windowsLoop 13 cexTextC4 10 5 0 = some [(0, 10), (5, 15), (10, 20)] ∧
    (10 : Int) ≠ 9 :=
  ⟨by decide, by decide, by decide, by decide, by decide⟩

/-- Claim C4 (amended): every window recorded by the chunking loop is
cut as follows: when the nominal end start + chunk_size lies strictly
inside the text, the cut is the one prescribed by the backward search
with a strictly-more-than-80-percent threshold (period first,
inclusive of the terminator, then whitespace, else the full
chunk_size); otherwise the end is start + chunk_size. -/
theorem claim_C4_amended (fuel : Nat) (t : List Char) (cs ov : Nat)
    (start : Int) (ws : List (Int × Int))
    (h : windowsLoop fuel t cs ov start = some ws) :
    ∀ w ∈ ws, w.2 =
      if w.1 + (cs : Int) < (t.length : Int)
      then specCutGt (pySlice t w.1 (w.1 + cs)) cs w.1 (w.1 + cs)
      else w.1 + cs := by
  induction fuel generalizing start ws with
  | zero => exact Option.noConfusion h
  | succ n ih =>
    rw [windowsLoop] at h
    by_cases hlt : start < (t.length : Int)
    · rw [if_pos hlt] at h
      by_cases hbrk : (t.length : Int) ≤ stepEnd t cs start - (ov : Int)
      · rw [if_pos hbrk] at h
        cases h
        intro w hw
        simp only [List.mem_singleton] at hw
        subst hw
        exact stepEnd_eq_specCutGt t cs start
      · rw [if_neg hbrk] at h
        cases hw' : windowsLoop n t cs ov (stepEnd t cs start - (ov : Int)) with
        | none =>
          rw [hw'] at h
          exact Option.noConfusion h
        | some ws' =>
          rw [hw'] at h
          simp only [Option.map_some', Option.some_inj] at h
          subst h
          intro w hw
          rcases List.mem_cons.mp hw with h1 | h2
          · subst h1
            exact stepEnd_eq_specCutGt t cs start
          · exact ih _ _ hw' w h2
    · rw [if_neg hlt] at h
      cases h
      intro w hw
      cases hw

theorem claim_C4_amended_witness :
    (windowsLoop 13 cexTextC4 10 5 0 = some [(0, 10), (5, 15), (10, 20)]) ∧
    (∀ w ∈ [((0 : Int), (10 : Int)), (5, 15), (10, 20)], w.2 =
      if w.1 + (10 : Int) < (cexTextC4.length : Int)
      then specCutGt (pySlice cexTextC4 w.1 (w.1 + 10)) 10 w.1 (w.1 + 10)
      else w.1 + 10) :=
  ⟨by decide, claim_C4_amended 13 cexTextC4 10 5 0 _ (by decide)⟩

/-! Claim C5. -/

theorem chunkLoop_cexC5_step (fuel : Nat) (acc : List (List Char)) :
    chunkLoop (fuel + 1) (List.replicate 11 'a') 10 10 0 acc =
      chunkLoop fuel (List.replicate 11 'a') 10 10 0
        (acc ++ [List.replicate 10 'a']) := rfl

/-- Claim C5: the configuration overlap = chunk_size is accepted (the
constructor of DocumentProcessor stores the fields without any
validation, and chunk_text performs none either) and the loop diverges,
contradicting the specified guarantee: on an 11-character text with
chunk_size 10 and overlap 10 every window ends at 10 and the next start
10 - 10 = 0 never advances, so the loop fails for every amount of
fuel. -/
theorem claim_C5_code_bug :
    ∀ fuel : Nat, chunkRun fuel (List.replicate 11 'a') 10 10 = none := by
  have key : ∀ (fuel : Nat) (acc : List (List Char)),
      chunkLoop fuel (List.replicate 11 'a') 10 10 0 acc = none := by
    intro fuel
    induction fuel with
    | zero => intro acc; rfl
    | succ n ih =>
      intro acc
      rw [chunkLoop_cexC5_step]
      exact ih _
  intro fuel
  rw [chunkRun, if_neg (by decide), key]

/-! Claims C6 and C10. -/

/-- Claim C6: a text no longer than the effective chunk_size is
returned untouched as the single chunk, with no trimming applied. -/
theorem claim_C6 (fuel selfCs selfOv : Nat) (t : List Char)
    (csArg ovArg : Option Nat) (h : t.length ≤ orDefault selfCs csArg) :
    chunk_text fuel selfCs selfOv t csArg ovArg = some [t] := by
  rw [chunk_text]
  simp only [if_pos h]

theorem claim_C6_witness :
    ("abc".toList.length ≤ orDefault 10 none) ∧
    chunk_text 5 10 2 "abc".toList none none = some ["abc".toList] :=
  ⟨by decide, claim_C6 5 10 2 "abc".toList none none (by decide)⟩

/-- Claim C10: passing 0 explicitly for chunk_size or overlap behaves
exactly like omitting the argument, because the Python or-expression
treats 0 as falsy and substitutes the configured default. -/
theorem claim_C10 (fuel selfCs selfOv : Nat) (t : List Char)
    (csArg ovArg : Option Nat) :
    chunk_text fuel selfCs selfOv t (some 0) ovArg =
      chunk_text fuel selfCs selfOv t none ovArg ∧
    chunk_text fuel selfCs selfOv t csArg (some 0) =
      chunk_text fuel selfCs selfOv t csArg none :=
  ⟨rfl, rfl⟩

/-! Ingestion pipeline model (document_ingestion.py).  The embedding
service and the vector-store add call are oracles: embed returns none
when the service call fails (get_embedding catches the exception and
returns None), and addOk tells whether the collection.add call for a
given record raises. -/

/-- Python pathlib Path(name).stem for a bare file name: the name less
its final dot-suffix; a suffix exists only when the last dot is
neither the first character nor past the end. -/
def pathStem (s : String) : String :=
  let cs := s.toList
  match lastIndexOf cs '.' with
  | some i =>
    if 0 < i ∧ i + 1 < cs.length then (cs.take i).asString else s
  | none => s

/-- The document metadata fields the ingestion bookkeeping reads;
only the filename is consulted by add_document_chunks. -/
structure DocMeta where
  filename : String
deriving DecidableEq

/-- A record upserted into the Chroma collection: id, embedding,
document text, and the metadata map merged with the chunk ordinal
(the filename stands for the copied document metadata). -/
structure StoredRecord where
  id : String
  embedding : List Int
  document : List Char
  filename : String
  chunk_id : Nat
deriving DecidableEq

structure AddOutcome where
  success : Bool
  chunks_added : Nat
  message : String
deriving DecidableEq

/-- The loop of DocumentIngestion.add_document_chunks
(document_ingestion.py lines 59-99): enumerate the chunks, skip blank
chunks and chunks whose embedding fails, upsert one record per
remaining chunk with id stem_i; when the store add raises, the
enclosing except block reports failure with chunks_added 0 while the
records already added stay in the store. -/
def addChunksLoop (embed : List Char → Option (List Int))
    (addOk : StoredRecord → Bool) (meta : DocMeta) :
    List (List Char) → Nat → Nat → List StoredRecord →
      List StoredRecord × AddOutcome
  | [], _, added, store =>
    (store, ⟨true, added, "Successfully added " ++ toString added ++ " chunks"⟩)
  | c :: rest, i, added, store =>
    if pyStrip c = [] then addChunksLoop embed addOk meta rest (i + 1) added store
    else
      match embed c with
      | none => addChunksLoop embed addOk meta rest (i + 1) added store
      | some emb =>
        let r : StoredRecord :=
          ⟨pathStem meta.filename ++ "_" ++ toString i, emb, c, meta.filename, i⟩
        if addOk r then
          addChunksLoop embed addOk meta rest (i + 1) (added + 1) (store ++ [r])
        else (store, ⟨false, 0, "Error adding chunks"⟩)

def add_document_chunks (embed : List Char → Option (List Int))
    (addOk : StoredRecord → Bool) (chunks : List (List Char))
    (meta : DocMeta) (store : List StoredRecord) :
    List StoredRecord × AddOutcome :=
  addChunksLoop embed addOk meta chunks 0 0 store

/-- The records a fully successful run stores: one per chunk that is
non-blank and embeddable, carrying the enumerate index as ordinal. -/
def expectedRecords (embed : List Char → Option (List Int)) (meta : DocMeta)
    (chunks : List (List Char)) : List StoredRecord :=
  chunks.enum.filterMap fun p =>
    if pyStrip p.2 = [] then none
    else
      match embed p.2 with
      | none => none
      | some emb =>
        some ⟨pathStem meta.filename ++ "_" ++ toString p.1, emb, p.2,
          meta.filename, p.1⟩

/-- The same records for an enumeration starting at i. -/
def expectedRecordsFrom (embed : List Char → Option (List Int)) (meta : DocMeta)
    (i : Nat) (chunks : List (List Char)) : List StoredRecord :=
  (List.enumFrom i chunks).filterMap fun p =>
    if pyStrip p.2 = [] then none
    else
      match embed p.2 with
      | none => none
      | some emb =>
        some ⟨pathStem meta.filename ++ "_" ++ toString p.1, emb, p.2,
          meta.filename, p.1⟩

theorem expectedRecords_eq_from (embed : List Char → Option (List Int))
    (meta : DocMeta) (chunks : List (List Char)) :
    expectedRecords embed meta chunks = expectedRecordsFrom embed meta 0 chunks := by
  rw [expectedRecords, expectedRecordsFrom, List.enum]

theorem expectedRecordsFrom_cons (embed : List Char → Option (List Int))
    (meta : DocMeta) (i : Nat) (c : List Char) (rest : List (List Char)) :
    expectedRecordsFrom embed meta i (c :: rest) =
      (if pyStrip c = [] then []
        else
          match embed c with
          | none => []
          | some emb =>
            [⟨pathStem meta.filename ++ "_" ++ toString i, emb, c,
              meta.filename, i⟩]) ++
      expectedRecordsFrom embed meta (i + 1) rest := by
  rw [expectedRecordsFrom, expectedRecordsFrom, List.enumFrom_cons,
    List.filterMap_cons]
  dsimp only
  by_cases hblank : pyStrip c = []
  · rw [if_pos hblank, if_pos hblank]
    rfl
  · rw [if_neg hblank, if_neg hblank]
    cases hemb : embed c <;> simp

theorem addChunksLoop_success (embed : List Char → Option (List Int))
    (addOk : StoredRecord → Bool) (meta : DocMeta) :
    ∀ (chunks : List (List Char)) (i added : Nat) (store : List StoredRecord),
      (addChunksLoop embed addOk meta chunks i added store).2.success = true →
      addChunksLoop embed addOk meta chunks i added store =
        (store ++ expectedRecordsFrom embed meta i chunks,
          ⟨true, added + (expectedRecordsFrom embed meta i chunks).length,
            "Successfully added " ++
              toString (added + (expectedRecordsFrom embed meta i chunks).length) ++
              " chunks"⟩) := by
  intro chunks
  induction chunks with
  | nil =>
    intro i added store _
    simp [addChunksLoop, expectedRecordsFrom]
  | cons c rest ih =>
    intro i added store hsucc
    rw [addChunksLoop] at hsucc ⊢
    rw [expectedRecordsFrom_cons]
    by_cases hblank : pyStrip c = []
    · simp only [if_pos hblank] at hsucc ⊢
      rw [ih (i + 1) added store hsucc]
      simp
    · simp only [if_neg hblank] at hsucc ⊢
      cases hemb : embed c with
      | none =>
        rw [hemb] at hsucc
        dsimp only at hsucc ⊢
        rw [ih (i + 1) added store hsucc]
        simp
      | some emb =>
        rw [hemb] at hsucc
        dsimp only at hsucc ⊢
        by_cases hok : addOk
            ⟨pathStem meta.filename ++ "_" ++ toString i, emb, c,
              meta.filename, i⟩
        · rw [if_pos hok] at hsucc
          rw [if_pos hok]
          rw [ih (i + 1) (added + 1) _ hsucc]
          simp [Nat.add_assoc, Nat.add_comm, Nat.add_left_comm]
        · rw [if_neg hok] at hsucc
          exact absurd hsucc (by simp)

/-- Claim C7: when add_document_chunks succeeds, the records appended
to the store are exactly one per non-blank, embeddable chunk, in
order; each carries id stem_i and metadata chunk_id i where i is the
index of the chunk in the chunker output (so skipped chunks never
renumber later ones), and chunks_added equals the number of records
actually upserted. -/
theorem claim_C7 (embed : List Char → Option (List Int))
    (addOk : StoredRecord → Bool) (chunks : List (List Char))
    (meta : DocMeta) (store₀ : List StoredRecord)
    (h : (add_document_chunks embed addOk chunks meta store₀).2.success = true) :
    (add_document_chunks embed addOk chunks meta store₀).1 =
      store₀ ++ expectedRecords embed meta chunks ∧
    (add_document_chunks embed addOk chunks meta store₀).2.chunks_added =
      (expectedRecords embed meta chunks).length ∧
    (∀ r ∈ expectedRecords embed meta chunks,
      r.id = pathStem meta.filename ++ "_" ++ toString r.chunk_id ∧
      r.chunk_id < chunks.length ∧
      chunks[r.chunk_id]? = some r.document ∧
      pyStrip r.document ≠ [] ∧ embed r.document = some r.embedding) := by
  rw [add_document_chunks] at h ⊢
  rw [addChunksLoop_success embed addOk meta chunks 0 0 store₀ h]
  rw [← expectedRecords_eq_from]
  refine ⟨rfl, by simp, ?_⟩
  intro r hr
  rw [expectedRecords] at hr
  obtain ⟨p, hpmem, hp⟩ := List.mem_filterMap.mp hr
  by_cases hblank : pyStrip p.2 = []
  · rw [if_pos hblank] at hp
    cases hp
  · rw [if_neg hblank] at hp
    cases hemb : embed p.2 with
    | none =>
      rw [hemb] at hp
      cases hp
    | some emb =>
      rw [hemb] at hp
      cases hp
      obtain ⟨p1, p2⟩ := p
      obtain ⟨h1, h2, h3⟩ := List.mem_enumFrom (by simpa [List.enum] using hpmem)
      dsimp only at hblank hemb ⊢
      refine ⟨rfl, by omega, ?_, hblank, hemb⟩
      rw [List.getElem?_eq_getElem (by omega : p1 < chunks.length)]
      exact congrArg some h3.symm

theorem claim_C7_witness :
    ((add_document_chunks (fun c => if c = ['c', 'd'] then none else some [1])
        (fun _ => true) [['a', 'b'], [' '], ['c', 'd'], ['e', 'f']]
        ⟨"doc.pdf"⟩ []).2.success = true) ∧
    ((add_document_chunks (fun c => if c = ['c', 'd'] then none else some [1])
        (fun _ => true) [['a', 'b'], [' '], ['c', 'd'], ['e', 'f']]
        ⟨"doc.pdf"⟩ []).1 =
      [] ++ expectedRecords (fun c => if c = ['c', 'd'] then none else some [1])
        ⟨"doc.pdf"⟩ [['a', 'b'], [' '], ['c', 'd'], ['e', 'f']] ∧
    (add_document_chunks (fun c => if c = ['c', 'd'] then none else some [1])
        (fun _ => true) [['a', 'b'], [' '], ['c', 'd'], ['e', 'f']]
        ⟨"doc.pdf"⟩ []).2.chunks_added =
      (expectedRecords (fun c => if c = ['c', 'd'] then none else some [1])
        ⟨"doc.pdf"⟩ [['a', 'b'], [' '], ['c', 'd'], ['e', 'f']]).length ∧
    (∀ r ∈ expectedRecords (fun c => if c = ['c', 'd'] then none else some [1])
        ⟨"doc.pdf"⟩ [['a', 'b'], [' '], ['c', 'd'], ['e', 'f']],
      r.id = pathStem (DocMeta.mk "doc.pdf").filename ++ "_" ++ toString r.chunk_id ∧
      r.chunk_id < ([['a', 'b'], [' '], ['c', 'd'], ['e', 'f']] :
        List (List Char)).length ∧
      ([['a', 'b'], [' '], ['c', 'd'], ['e', 'f']] :
        List (List Char))[r.chunk_id]? = some r.document ∧
      pyStrip r.document ≠ [] ∧
      (fun c => if c = ['c', 'd'] then none else some [1]) r.document =
        some r.embedding)) :=
  ⟨by decide,
   claim_C7 (fun c => if c = ['c', 'd'] then none else some [1]) (fun _ => true)
     [['a', 'b'], [' '], ['c', 'd'], ['e', 'f']] ⟨"doc.pdf"⟩ [] (by decide)⟩

theorem addChunksLoop_failure (embed : List Char → Option (List Int))
    (addOk : StoredRecord → Bool) (meta : DocMeta) :
    ∀ (chunks : List (List Char)) (i added : Nat) (store : List StoredRecord),
      (addChunksLoop embed addOk meta chunks i added store).2.success = false →
      (addChunksLoop embed addOk meta chunks i added store).2.chunks_added = 0 ∧
      ∃ recs, (addChunksLoop embed addOk meta chunks i added store).1 =
        store ++ recs := by
  intro chunks
  induction chunks with
  | nil =>
    intro i added store hfail
    exact absurd hfail (by simp [addChunksLoop])
  | cons c rest ih =>
    intro i added store hfail
    rw [addChunksLoop] at hfail ⊢
    by_cases hblank : pyStrip c = []
    · simp only [if_pos hblank] at hfail ⊢
      exact ih (i + 1) added store hfail
    · simp only [if_neg hblank] at hfail ⊢
      cases hemb : embed c with
      | none =>
        rw [hemb] at hfail
        dsimp only at hfail ⊢
        exact ih (i + 1) added store hfail
      | some emb =>
        rw [hemb] at hfail
        dsimp only at hfail ⊢
        by_cases hok : addOk
            ⟨pathStem meta.filename ++ "_" ++ toString i, emb, c,
              meta.filename, i⟩
        · rw [if_pos hok] at hfail
          rw [if_pos hok]
          obtain ⟨hz, recs, hrecs⟩ := ih (i + 1) (added + 1) _ hfail
          refine ⟨hz, ?_⟩
          rw [hrecs, List.append_assoc]
          exact ⟨_, rfl⟩
        · rw [if_neg hok]
          exact ⟨rfl, [], by simp⟩

/-- Claim C9: when the vector-store add call raises partway through
the chunk list, add_document_chunks reports success false with
chunks_added 0, yet the store state only ever grows: every record
upserted before the failing call remains appended after the original
store contents, so the reported count understates the stored state
and no rollback occurs. -/
theorem claim_C9 (embed : List Char → Option (List Int))
    (addOk : StoredRecord → Bool) (chunks : List (List Char))
    (meta : DocMeta) (store₀ : List StoredRecord)
    (h : (add_document_chunks embed addOk chunks meta store₀).2.success = false) :
    (add_document_chunks embed addOk chunks meta store₀).2.chunks_added = 0 ∧
    ∃ recs, (add_document_chunks embed addOk chunks meta store₀).1 =
      store₀ ++ recs := by
  rw [add_document_chunks] at h ⊢
  exact addChunksLoop_failure embed addOk meta chunks 0 0 store₀ h

theorem claim_C9_witness :
    ((add_document_chunks (fun _ => some [7]) (fun r => r.chunk_id == 0)
        [['a'], ['b']] ⟨"f.pdf"⟩ []).2.success = false) ∧
    ((add_document_chunks (fun _ => some [7]) (fun r => r.chunk_id == 0)
        [['a'], ['b']] ⟨"f.pdf"⟩ []).2.chunks_added = 0 ∧
      ∃ recs, (add_document_chunks (fun _ => some [7]) (fun r => r.chunk_id == 0)
        [['a'], ['b']] ⟨"f.pdf"⟩ []).1 = [] ++ recs) ∧
    ((add_document_chunks (fun _ => some [7]) (fun r => r.chunk_id == 0)
        [['a'], ['b']] ⟨"f.pdf"⟩ []).1.length = 1) :=
  ⟨by decide,
   claim_C9 (fun _ => some [7]) (fun r => r.chunk_id == 0) [['a'], ['b']]
     ⟨"f.pdf"⟩ [] (by decide),
   by decide⟩

/-! Folder ingestion model (document_processor.py process_folder and
document_ingestion.py process_and_add_folder).  Extraction and
chunking of one file happen through process_file, which never raises
(all its failure paths return an error dictionary), so it is an oracle
from the file path to a per-file outcome. -/

/-- Outcome of DocumentProcessor.process_file for one file. -/
inductive ProcessFileResult where
  | ok : List (List Char) → DocMeta → ProcessFileResult
  | err : String → DocMeta → ProcessFileResult

structure ProcessedFile where
  file_path : String
  chunks : List (List Char)
  meta : DocMeta

structure FailedFile where
  file_path : String
  error : String
  meta : DocMeta

structure FolderProcResult where
  success : Bool
  processed_files : List ProcessedFile
  failed_files : List FailedFile
  total_chunks : Nat

/-- One step of the aggregation loop of DocumentProcessor.process_folder
(document_processor.py lines 277-295): the file lands in exactly one of
the two lists according to the process_file outcome. -/
def processFolderStep (processFile : String → ProcessFileResult)
    (acc : FolderProcResult) (f : String) : FolderProcResult :=
  match processFile f with
  | .ok chunks m =>
    { acc with
      processed_files := acc.processed_files ++ [⟨f, chunks, m⟩],
      total_chunks := acc.total_chunks + chunks.length }
  | .err e m =>
    { acc with failed_files := acc.failed_files ++ [⟨f, e, m⟩] }

/-- DocumentProcessor.process_folder over the matched file list
(document_processor.py lines 276-303). -/
def process_folder (processFile : String → ProcessFileResult)
    (files : List String) : FolderProcResult :=
  files.foldl (processFolderStep processFile) ⟨true, [], [], 0⟩

structure SuccessFile where
  file_path : String
  chunks_added : Nat
  meta : DocMeta

structure FolderAddResult where
  success : Bool
  files_processed : Nat
  total_chunks_added : Nat
  successful_files : List SuccessFile
  failed_files : List FailedFile

/-- One step of the loop of DocumentIngestion.process_and_add_folder
(document_ingestion.py lines 135-153): push one extracted file through
add_document_chunks, threading the store, and record it as successful
or failed. -/
def addFolderStep (embed : List Char → Option (List Int))
    (addOk : StoredRecord → Bool)
    (st : List StoredRecord × Nat × List SuccessFile × List FailedFile)
    (fd : ProcessedFile) :
    List StoredRecord × Nat × List SuccessFile × List FailedFile :=
  let res := add_document_chunks embed addOk fd.chunks fd.meta st.1
  if res.2.success then
    (res.1, st.2.1 + res.2.chunks_added,
      st.2.2.1 ++ [⟨fd.file_path, res.2.chunks_added, fd.meta⟩],
      st.2.2.2)
  else
    (res.1, st.2.1, st.2.2.1,
      st.2.2.2 ++ [⟨fd.file_path, res.2.message, fd.meta⟩])

/-- DocumentIngestion.process_and_add_folder (document_ingestion.py
lines 122-162): run process_folder, copy its extraction failures, then
push the chunks of each successfully extracted file through
add_document_chunks, moving each file into the successful or the
failed list according to the add outcome. -/
def process_and_add_folder (processFile : String → ProcessFileResult)
    (embed : List Char → Option (List Int)) (addOk : StoredRecord → Bool)
    (files : List String) (store₀ : List StoredRecord) :
    List StoredRecord × FolderAddResult :=
  let pr := process_folder processFile files
  let out := pr.processed_files.foldl (addFolderStep embed addOk)
    (store₀, 0, [], pr.failed_files)
  (out.1, ⟨true, out.2.2.1.length, out.2.1, out.2.2.1, out.2.2.2⟩)

theorem processFolderStep_counts (processFile : String → ProcessFileResult) :
    ∀ (fs : List String) (acc : FolderProcResult),
      (fs.foldl (processFolderStep processFile) acc).processed_files.length +
        (fs.foldl (processFolderStep processFile) acc).failed_files.length =
      acc.processed_files.length + acc.failed_files.length + fs.length := by
  intro fs
  induction fs with
  | nil => intro acc; simp
  | cons f rest ih =>
    intro acc
    rw [List.foldl_cons, ih]
    rw [processFolderStep]
    cases processFile f with
    | ok chunks m =>
      dsimp only
      simp
      omega
    | err e m =>
      dsimp only
      simp
      omega

theorem process_folder_counts (processFile : String → ProcessFileResult)
    (files : List String) :
    (process_folder processFile files).processed_files.length +
      (process_folder processFile files).failed_files.length = files.length := by
  rw [process_folder]
  rw [processFolderStep_counts]
  simp

theorem addFolderStep_counts (embed : List Char → Option (List Int))
    (addOk : StoredRecord → Bool) :
    ∀ (pfs : List ProcessedFile)
      (st : List StoredRecord × Nat × List SuccessFile × List FailedFile),
      (pfs.foldl (addFolderStep embed addOk) st).2.2.1.length +
        (pfs.foldl (addFolderStep embed addOk) st).2.2.2.length =
      st.2.2.1.length + st.2.2.2.length + pfs.length := by
  intro pfs
  induction pfs with
  | nil => intro st; simp
  | cons fd rest ih =>
    intro st
    rw [List.foldl_cons, ih]
    rw [addFolderStep]
    by_cases hs : (add_document_chunks embed addOk fd.chunks fd.meta st.1).2.success
    · rw [if_pos hs]
      simp
      omega
    · rw [if_neg hs]
      simp
      omega

/-- Claim C1: for a folder with at least one matched file, every
matched file contributes exactly one entry to either the
successful-files list or the failed-files list of the folder
ingestion result, whatever the extraction, chunking, embedding and
storage oracles do to the individual files: a failure in one file
never prevents the remaining files from being processed and
aggregated. -/
theorem claim_C1 (processFile : String → ProcessFileResult)
    (embed : List Char → Option (List Int)) (addOk : StoredRecord → Bool)
    (files : List String) (store₀ : List StoredRecord)
    (_hne : files ≠ []) :
    (process_and_add_folder processFile embed addOk files store₀).2.successful_files.length +
      (process_and_add_folder processFile embed addOk files store₀).2.failed_files.length =
      files.length := by
  have h1 := process_folder_counts processFile files
  have h2 := addFolderStep_counts embed addOk
    (process_folder processFile files).processed_files
    (store₀, 0, [], (process_folder processFile files).failed_files)
  simp only [List.length_nil] at h2
  rw [process_and_add_folder]
  dsimp only
  omega

theorem claim_C1_witness :
    ((["a.pdf", "b.pdf", "c.txt"] : List String) ≠ []) ∧
    (process_and_add_folder
        (fun f => if f = "c.txt"
          then .err "Unsupported file type: .txt" ⟨"c.txt"⟩
          else .ok [['x']] ⟨f⟩)
        (fun _ => some [1])
        (fun r => r.filename == "a.pdf")
        ["a.pdf", "b.pdf", "c.txt"] []).2.successful_files.length +
      (process_and_add_folder
        (fun f => if f = "c.txt"
          then .err "Unsupported file type: .txt" ⟨"c.txt"⟩
          else .ok [['x']] ⟨f⟩)
        (fun _ => some [1])
        (fun r => r.filename == "a.pdf")
        ["a.pdf", "b.pdf", "c.txt"] []).2.failed_files.length =
      (["a.pdf", "b.pdf", "c.txt"] : List String).length :=
  ⟨by decide,
   claim_C1
     (fun f => if f = "c.txt"
       then .err "Unsupported file type: .txt" ⟨"c.txt"⟩
       else .ok [['x']] ⟨f⟩)
     (fun _ => some [1]) (fun r => r.filename == "a.pdf")
     ["a.pdf", "b.pdf", "c.txt"] [] (by decide)⟩


/-! Retrieval pipeline model (simple_rag.py answer_question).  The
query embedding, the vector-store query and the chat completion are
oracles; embedQ and complete return none when the service call fails
(get_embedding catches its exception and returns None, and a raise
from the completion call is caught by the surrounding except). -/

/-- The shape of the Chroma query result consumed by answer_question:
parallel outer lists for documents, metadatas and distances, one inner
list per query (metadata values are opaque strings here). -/
structure QueryResponse where
  documents : List (List String)
  metadatas : List (List String)
  distances : List (List Int)

/-- One source entry of a successful answer: chunk text, its stored
metadata (none models the empty default used when the store returned
no metadatas), and its distance (none likewise). -/
structure SourceAttribution where
  content : String
  metadata : Option String
  distance : Option Int
deriving DecidableEq

structure RAGAnswer where
  success : Bool
  answer : String
  sources : List SourceAttribution
deriving DecidableEq

/-- The canned reply of simple_rag.py line 81 (the apostrophe is
spelled via its code point). -/
def noInfoMsg : String :=
  "I couldn" ++ (Char.ofNat 39).toString ++
  "t find any relevant information to answer your question."

/-- The prompt of simple_rag.py lines 89-93. -/
def mkPrompt (context question : String) : String :=
  "Based on the following context from documents, answer the question. If you can" ++
  (Char.ofNat 39).toString ++
  "t answer based on the context, say so.\n\n                    Context: " ++
  context ++ "\n                    Question: " ++ question ++
  "\n                    Answer:"

/-- The source loop of simple_rag.py lines 104-110: one attribution
per retrieved document, indexing metadatas[0][i] when metadatas is
non-empty and distances[0][i] when distances is non-empty; an
out-of-range index is the IndexError path, which the enclosing except
turns into a failure answer. -/
def buildSources (resp : QueryResponse) (d0 : List String) :
    Option (List SourceAttribution) :=
  (List.range d0.length).mapM fun i => do
    let content ← d0[i]?
    let md : Option String ←
      match resp.metadatas with
      | [] => some none
      | m0 :: _ => (m0[i]?).map some
    let dist : Option Int ←
      match resp.distances with
      | [] => some none
      | dd0 :: _ => (dd0[i]?).map some
    some ⟨content, md, dist⟩

/-- SimpleRAG.answer_question (simple_rag.py lines 58-124): embed the
question (failure is terminal), query the store for the top k matches
(k defaults through the or-expression), return the canned success
answer on zero matches, otherwise build the context block, call the
completion once, and attach one source per match. -/
def answer_question (embedQ : String → Option (List Int))
    (query : List Int → Nat → QueryResponse)
    (complete : String → Option String)
    (defaultK : Nat) (question : String) (nResults : Option Nat) : RAGAnswer :=
  let k := orDefault defaultK nResults
  match embedQ question with
  | none => ⟨false, "Error generating query embedding", []⟩
  | some emb =>
    let results := query emb k
    match results.documents with
    | [] => ⟨true, noInfoMsg, []⟩
    | d0 :: _ =>
      if d0 = [] then ⟨true, noInfoMsg, []⟩
      else
        match complete (mkPrompt (String.intercalate "\n\n" d0) question) with
        | none => ⟨false, "Error generating answer", []⟩
        | some ans =>
          match buildSources results d0 with
          | none => ⟨false, "Error generating answer", []⟩
          | some sources => ⟨true, ans, sources⟩

/-- Claim C8: whenever the query embedding succeeds and the store
returns zero matches (an empty documents list, or an empty first
row), answer_question returns success true with the canned
no-relevant-information answer and an empty sources list — never a
failure result. -/
theorem claim_C8 (embedQ : String → Option (List Int))
    (query : List Int → Nat → QueryResponse)
    (complete : String → Option String)
    (defaultK : Nat) (question : String) (nResults : Option Nat)
    (emb : List Int) (hemb : embedQ question = some emb)
    (hzero : (query emb (orDefault defaultK nResults)).documents = [] ∨
      ∃ rest, (query emb (orDefault defaultK nResults)).documents = [] :: rest) :
    answer_question embedQ query complete defaultK question nResults =
      ⟨true, noInfoMsg, []⟩ := by
  rw [answer_question]
  dsimp only
  rw [hemb]
  dsimp only
  rcases hzero with hz | ⟨rest, hz⟩
  · rw [hz]
  · rw [hz]
    dsimp only
    rw [if_pos rfl]

theorem claim_C8_witness :
    ((fun _ : String => some ([] : List Int)) "q" = some ([] : List Int)) ∧
    (((fun _ : List Int => fun _ : Nat => QueryResponse.mk [] [] [])
        [] (orDefault 4 none)).documents = [] ∨
      ∃ rest, ((fun _ : List Int => fun _ : Nat => QueryResponse.mk [] [] [])
        [] (orDefault 4 none)).documents = [] :: rest) ∧
    answer_question (fun _ => some []) (fun _ _ => QueryResponse.mk [] [] [])
        (fun _ => some "answer") 4 "q" none = ⟨true, noInfoMsg, []⟩ :=
  ⟨rfl, Or.inl rfl,
   claim_C8 (fun _ => some []) (fun _ _ => QueryResponse.mk [] [] [])
     (fun _ => some "answer") 4 "q" none [] rfl (Or.inl rfl)⟩

end RagAgent
